import Mathlib

/-!
Verification of the URL canonicalization engine and the comment mutation
layer of the `votp` backend (`src/backend/src/utils.rs`,
`src/backend/src/graphql/mutation.rs`).

Rust strings are embedded as `List Char`.  All inputs exercised by the
claims are ASCII, where the character count coincides with Rust's byte
count and Rust's Unicode `to_lowercase` / `trim` coincide with their
ASCII restrictions used here.
-/

set_option maxRecDepth 2000

instance {ε α : Type} [DecidableEq ε] [DecidableEq α] :
    DecidableEq (Except ε α) := fun a b =>
  match a, b with
  | .ok x, .ok y =>
    match decEq x y with
    | isTrue h => isTrue (h ▸ rfl)
    | isFalse h => isFalse fun hh => h (Except.ok.inj hh)
  | .error x, .error y =>
    match decEq x y with
    | isTrue h => isTrue (h ▸ rfl)
    | isFalse h => isFalse fun hh => h (Except.error.inj hh)
  | .ok _, .error _ => isFalse fun hh => Except.noConfusion hh
  | .error _, .ok _ => isFalse fun hh => Except.noConfusion hh

namespace Votp

/-- Characters of a Rust string, in order. -/
abbrev Str := List Char

/-- `str::to_lowercase`, per character (ASCII case mapping, which is what
`Char.toLower` implements and what every host in the claims exercises). -/
def toLowerStr (s : Str) : Str := s.map Char.toLower

/-- The character class `[a-z]` of the regex `^[a-z]{2}\.` in
`normalize_host` (utils.rs line 69). -/
def isLowerAlpha (c : Char) : Bool := 97 ≤ c.toNat && c.toNat ≤ 122

/-- Whether the regex `^[a-z]{2}\.` matches at the start of the host:
exactly two lowercase ASCII letters followed by a literal dot. -/
def langMatch : Str → Bool
  | a :: b :: c :: _ => isLowerAlpha a && isLowerAlpha b && c == '.'
  | _ => false

/-- The `www.` stripping step of `normalize_host` (utils.rs lines 62-66):
if the host starts with the literal `www.`, drop those four characters. -/
def wwwStrip (h : Str) : Str :=
  if h.take 4 = "www.".toList then h.drop 4 else h

/-- The language-subdomain stripping step of `normalize_host`
(utils.rs lines 68-75): if `^[a-z]{2}\.` matches, drop three characters. -/
def langStrip (h : Str) : Str :=
  if langMatch h then h.drop 3 else h

/-- `normalize_host` (utils.rs lines 58-76): lowercase the host, strip a
leading `www.`, then strip a leading two-letter language subdomain. -/
def normalize_host (h : Str) : Str :=
  let h1 := toLowerStr h
  let h2 := if h1.take 4 = "www.".toList then h1.drop 4 else h1
  if langMatch h2 then h2.drop 3 else h2

/-- The fixed denylist of `is_tracking_parameter` (utils.rs lines 79-83). -/
def trackingParams : List Str :=
  ["utm_source", "utm_medium", "utm_campaign", "utm_term", "utm_content",
   "fbclid", "gclid", "msclkid", "ref", "referrer", "_ga", "_gl",
   "mc_cid", "mc_eid", "campaign", "source", "medium"].map String.toList

/-- `is_tracking_parameter` (utils.rs lines 78-86): exact, case-sensitive
membership in the denylist. -/
def is_tracking_parameter (k : Str) : Bool :=
  trackingParams.contains k

/-- `str::trim` (whitespace removed from both ends; ASCII whitespace,
which is what the claims exercise). -/
def trimChars (cs : Str) : Str :=
  ((cs.dropWhile Char.isWhitespace).reverse.dropWhile Char.isWhitespace).reverse

/-- Rust `String::len`: the UTF-8 byte length of the string. -/
def byteLen (cs : Str) : Nat := (cs.map Char.utf8Size).sum

/-! ### URL model

`normalize_url` manipulates a parsed URL through the external `url` crate
(`Url::parse`, component accessors and setters, `to_string`).  That crate
is not part of this repository, so the parsed representation and its
(re)serialization are modelled from the spec: an absolute hierarchical URL
`scheme://host/path[?query][#fragment]`.  Userinfo, ports and
percent-encoding are not modelled; parsing fails on them. -/

/-- Modelled from the spec: the parsed absolute URL produced by step 1
(`Url::parse`, external `url` crate) — scheme, host, path, optional query
and optional fragment. -/
structure UrlRec where
  scheme : Str
  host : Str
  path : Str
  query : Option Str
  fragment : Option Str
deriving DecidableEq

/-- Characters allowed in a scheme after the first (ASCII letters, digits,
`+`, `-`, `.`). -/
def schemeChar (c : Char) : Bool :=
  (65 ≤ c.toNat && c.toNat ≤ 90) || isLowerAlpha c ||
  (48 ≤ c.toNat && c.toNat ≤ 57) || c == '+' || c == '-' || c == '.'

/-- A well-formed scheme: nonempty, starting with an ASCII letter. -/
def schemeOk : Str → Bool
  | [] => false
  | c :: cs => ((65 ≤ c.toNat && c.toNat ≤ 90) || isLowerAlpha c) && cs.all schemeChar

/-- Characters allowed in a modelled host (no delimiter, no userinfo or
port marker). -/
def hostChar (c : Char) : Bool :=
  !(c == '/' || c == '?' || c == '#' || c == ':' || c == '@')

/-- Characters that do not terminate the path component. -/
def pathChar (c : Char) : Bool := !(c == '?' || c == '#')

/-- Everything except the scheme terminator `:`. -/
def notColon (c : Char) : Bool := !(c == ':')

/-- Characters that do not terminate the authority component. -/
def authChar (c : Char) : Bool := !(c == '/' || c == '?' || c == '#')

/-- Everything except the fragment marker `#`. -/
def notHash (c : Char) : Bool := !(c == '#')

/-- Everything except the key/value split point `=`. -/
def notEq (c : Char) : Bool := !(c == '=')

/-- Modelled from the spec: step 1, parsing an absolute URL into its
components (the external `url` crate's `Url::parse`).  Returns `none` on
anything that is not `scheme://host/path[?query][#fragment]`. -/
def parseUrl (s : Str) : Option UrlRec :=
  let scheme := s.takeWhile notColon
  match s.drop scheme.length with
  | ':' :: '/' :: '/' :: rest =>
    if schemeOk scheme then
      let auth := rest.takeWhile authChar
      if auth ≠ [] && auth.all hostChar then
        let rest2 := rest.drop auth.length
        let rawPath := rest2.takeWhile pathChar
        let path := if rawPath = [] then ['/'] else rawPath
        match rest2.drop rawPath.length with
        | [] => some ⟨scheme, auth, path, none, none⟩
        | '?' :: qrest =>
          let q := qrest.takeWhile notHash
          match qrest.drop q.length with
          | [] => some ⟨scheme, auth, path, some q, none⟩
          | '#' :: f => some ⟨scheme, auth, path, some q, some f⟩
          | _ => none
        | '#' :: f => some ⟨scheme, auth, path, none, some f⟩
        | _ => none
      else none
    else none
  | _ => none

/-- Modelled from the spec: step 7, serializing the URL back to a string
(the external `url` crate's `Url::to_string`). -/
def serializeUrl (r : UrlRec) : Str :=
  r.scheme ++ ':' :: '/' :: '/' :: r.host ++ r.path
    ++ (match r.query with | none => [] | some q => '?' :: q)
    ++ (match r.fragment with | none => [] | some f => '#' :: f)

/-- Split a character list on a separator character; pieces keep their
original order and empty pieces are kept (they are skipped later, as the
`url` crate's `query_pairs` skips empty `&`-segments). -/
def splitOnChar (c : Char) : Str → List Str
  | [] => [[]]
  | x :: xs =>
    if x == c then [] :: splitOnChar c xs
    else
      match splitOnChar c xs with
      | [] => [[x]]
      | p :: ps => (x :: p) :: ps

/-- Modelled from the spec: `url.query_pairs()` — split the raw query on
`&`, skip empty segments, and split each segment at its first `=` into a
key/value pair (a segment without `=` yields an empty value). -/
def parseQueryPairs (q : Str) : List (Str × Str) :=
  (splitOnChar '&' q).filterMap fun piece =>
    if piece.isEmpty then none
    else
      some (piece.takeWhile notEq,
            match piece.dropWhile notEq with
            | _ :: v => v
            | [] => [])

/-- Lexicographic order on strings by code point — `str::cmp`, which
compares UTF-8 bytes (UTF-8 byte order agrees with code-point order). -/
def lexLe : Str → Str → Bool
  | [], _ => true
  | _ :: _, [] => false
  | a :: as, b :: bs =>
    if a.toNat < b.toNat then true
    else if b.toNat < a.toNat then false
    else lexLe as bs

/-- Insert a pair into a key-sorted list, before any pair of equal key
that was originally later (the placement a stable sort produces). -/
def insertPair (x : Str × Str) : List (Str × Str) → List (Str × Str)
  | [] => [x]
  | y :: ys => if lexLe x.1 y.1 then x :: y :: ys else y :: insertPair x ys

/-- Stable sort of the query pairs by key: `query_pairs.sort_by(|a, b|
a.0.cmp(&b.0))` (utils.rs line 35; `Vec::sort_by` is a stable sort, and
stable insertion sort computes the same list). -/
def sortPairs : List (Str × Str) → List (Str × Str)
  | [] => []
  | x :: xs => insertPair x (sortPairs xs)

/-- Rejoin the kept pairs as `key=value` entries separated by `&`
(utils.rs lines 41-45). -/
def joinPairs : List (Str × Str) → Str
  | [] => []
  | [(k, v)] => k ++ '=' :: v
  | (k, v) :: p :: rest => k ++ '=' :: v ++ '&' :: joinPairs (p :: rest)

/-- Step 5 of `normalize_url` (utils.rs lines 29-47): decode the query
into pairs, drop tracking keys, sort stably by key, and rebuild the query
string — `none` when no pairs remain. -/
def normalizeQuery (q : Option Str) : Option Str :=
  let pairs := match q with | none => [] | some qs => parseQueryPairs qs
  let kept := pairs.filter fun p => !is_tracking_parameter p.1
  let sorted := sortPairs kept
  if sorted.isEmpty then none else some (joinPairs sorted)

/-- Step 4 of `normalize_url` (utils.rs lines 20-26): strip one trailing
`/` from the path when its length exceeds 1. -/
def normalizePath (p : Str) : Str :=
  if 1 < p.length && p.getLast? == some '/' then p.dropLast else p

/-- Steps 2-6 of `normalize_url` on the parsed record: lowercase the
scheme, normalize the host, normalize the path, rebuild the query, drop
the fragment (utils.rs lines 10-50).  This is the pure record transform
only; the one fallible setter, `set_host` on an emptied host, is checked
by `normalize_url` itself (which consults exactly this record's host)
before this result is used. -/
def normRec (r : UrlRec) : UrlRec :=
  { scheme := toLowerStr r.scheme
    host := normalize_host r.host
    path := normalizePath r.path
    query := normalizeQuery r.query
    fragment := none }

/-- Modelled from the spec: `create_url_hash` (utils.rs lines 88-92) hex
encodes a SHA-256 digest computed by the external `sha2`/`hex` crates.
The spec relies only on the digest being a deterministic function of the
canonical string that separates distinct strings, so it is embedded as an
injective deterministic encoding (the identity on the canonical bytes). -/
def create_url_hash (s : Str) : Str := s

/-- The errors of the canonicalizer: the parse failure of step 1
(`UrlError::Malformed`), and the failure of
`url.set_host(Some(&normalized_host))?` (utils.rs line 16) when
`normalize_host` has produced an empty host — the `url` crate rejects an
empty host on the hierarchical URLs this model parses
(`url::ParseError::EmptyHost`), and the `?` propagates it out of
`normalize_url` boxed in the returned error. -/
inductive UrlError where
  | Malformed
  | EmptyHost
deriving DecidableEq

/-- `normalize_url` (utils.rs lines 6-56): parse, lowercase the scheme,
normalize the host, path and query, drop the fragment, serialize, and
pair the canonical form with its grouping hash.

`url.set_scheme(&url.scheme().to_lowercase())?` (line 11) cannot fail in
the program — `Url::parse` stores the scheme already lowercased, so the
call re-sets the scheme the URL already has — and is therefore embedded
as the total lowering inside `normRec`.  `url.set_host(...)?` (line 16)
does fail when `normalize_host` returns the empty string (hosts such as
`en.` or `www.`): that error path is the `EmptyHost` branch below, taken
before the remaining total steps. -/
def normalize_url (input : Str) : Except UrlError (Str × Str) :=
  match parseUrl input with
  | none => .error .Malformed
  | some r =>
    if normalize_host r.host = [] then .error .EmptyHost
    else
      let c := serializeUrl (normRec r)
      .ok (c, create_url_hash c)

/-! ### Comment mutation layer

`create_comment`, `update_comment` and `delete_comment`
(`src/backend/src/graphql/mutation.rs`).  The GraphQL context's
authenticated user id is an `Option Nat` (`ctx.data::<Uuid>()`, absent
when unauthenticated); the comments table is a list of rows; errors are
the message strings the handlers build with `async_graphql::Error::new`.
The SQL statements are embedded as the corresponding list operations. -/

/-- A row of the `comments` table, with the columns the mutations touch. -/
structure StoredComment where
  id : Nat
  author : Nat
  content : Str
  url : Str
  normalized_url : Str
  url_hash : Str
  parent : Option Nat
deriving DecidableEq

abbrev Store := List StoredComment

def authMsg : Str := "Authentication required".toList

def invalidUrlMsg : Str := "Invalid URL".toList

def emptyMsg : Str := "Comment content cannot be empty".toList

def tooLongMsg : Str :=
  "Comment content too long (max 5000 characters)".toList

def parentMsg : Str := "Parent comment not found".toList

def updateMissingMsg : Str :=
  "Comment not found or you don\x27t have permission to edit it".toList

def deleteMissingMsg : Str :=
  "Comment not found or you don\x27t have permission to delete it".toList

/-- The content checks shared verbatim by `create_comment`
(mutation.rs lines 247-253) and `update_comment` (lines 305-311):
reject when the trimmed content is empty, then when the untrimmed
content's length exceeds 5000; otherwise the trimmed content is what gets
stored (`.bind(&content.trim())`). -/
def validate_content (content : Str) : Except Str Str :=
  if (trimChars content).isEmpty then .error emptyMsg
  else if 5000 < byteLen content then .error tooLongMsg
  else .ok (trimChars content)

/-- `create_comment` (mutation.rs lines 229-289): authentication, URL
normalization, content validation, parent existence, then the insert.
`newId` stands for the id the database would assign to the new row. -/
def create_comment (auth : Option Nat) (store : Store) (content url : Str)
    (parent_id : Option Nat) (newId : Nat) :
    Except Str (Store × StoredComment) :=
  match auth with
  | none => .error authMsg
  | some user =>
    match normalize_url url with
    | .error _ => .error invalidUrlMsg
    | .ok (nurl, nhash) =>
      match validate_content content with
      | .error e => .error e
      | .ok trimmed =>
        let parentOk := match parent_id with
          | none => true
          | some pid => store.any fun c => c.id == pid
        if parentOk then
          let row : StoredComment :=
            ⟨newId, user, trimmed, url, nurl, nhash, parent_id⟩
          .ok (store ++ [row], row)
        else .error parentMsg

/-- `update_comment` (mutation.rs lines 292-335): authentication, content
validation, then `UPDATE … WHERE id = $2 AND user_id = $3 RETURNING *`
via `fetch_optional` — a single fused check for existence and
ownership. -/
def update_comment (auth : Option Nat) (store : Store) (id : Nat)
    (content : Str) : Except Str (Store × StoredComment) :=
  match auth with
  | none => .error authMsg
  | some user =>
    match validate_content content with
    | .error e => .error e
    | .ok trimmed =>
      match store.find? (fun c => c.id == id && c.author == user) with
      | none => .error updateMissingMsg
      | some c =>
        let c2 := { c with content := trimmed }
        let store2 := store.map fun x =>
          if x.id == id && x.author == user then { x with content := trimmed }
          else x
        .ok (store2, c2)

/-- `delete_comment` (mutation.rs lines 338-361): authentication, then
`DELETE FROM comments WHERE id = $1 AND user_id = $2`, failing when
`rows_affected` is zero. -/
def delete_comment (auth : Option Nat) (store : Store) (id : Nat) :
    Except Str Store :=
  match auth with
  | none => .error authMsg
  | some user =>
    let remaining := store.filter fun c => !(c.id == id && c.author == user)
    if remaining.length = store.length then .error deleteMissingMsg
    else .ok remaining

/-- The key order used by the stable sort, as a relation on pairs. -/
def keyLe (a b : Str × Str) : Prop := lexLe a.1 b.1 = true

/-- The shape `normRec` guarantees for its output on a parsed URL:
exactly what makes the serialized form re-parse to the same record. -/
structure NormWf (r : UrlRec) : Prop where
  schemeFact : schemeOk r.scheme = true
  hostNe : r.host ≠ []
  hostFact : ∀ c ∈ r.host, hostChar c = true
  pathNe : r.path ≠ []
  pathHead : r.path.head? = some '/'
  pathFact : ∀ c ∈ r.path, pathChar c = true
  queryFact : ∀ q, r.query = some q → ∀ c ∈ q, notHash c = true
  fragNone : r.fragment = none

/-- The canonical form `normalize_url` returns, when it succeeds. -/
def canonicalFormOf (u : Str) : Option Str :=
  match normalize_url u with
  | .ok (c, _) => some c
  | .error _ => none

/-- The grouping key `normalize_url` returns, when it succeeds. -/
def groupingKeyOf (u : Str) : Option Str :=
  match normalize_url u with
  | .ok (_, k) => some k
  | .error _ => none

/-- A single leading space followed by 5000 letters: trimmed length is
exactly 5000, raw length is 5001. -/
def contentCex : Str := ' ' :: List.replicate 5000 'a'

/-! ### Basic lemmas -/

theorem char_toNat_inj {c d : Char} (h : c.toNat = d.toNat) : c = d := by
  have h2 := congrArg Char.ofNat h
  rwa [Char.ofNat_toNat, Char.ofNat_toNat] at h2

theorem char_toNat_ofNat {n : Nat} (h : n < 55296) : (Char.ofNat n).toNat = n := by
  rw [Char.ofNat, dif_pos (Or.inl h)]
  rfl

theorem toLower_cases (c : Char) :
    (Char.toLower c = c ∧ ¬(65 ≤ c.toNat ∧ c.toNat ≤ 90)) ∨
    ((Char.toLower c).toNat = c.toNat + 32 ∧ 65 ≤ c.toNat ∧ c.toNat ≤ 90) := by
  unfold Char.toLower
  by_cases h : c.toNat ≥ 65 ∧ c.toNat ≤ 90
  · right
    rw [if_pos h]
    exact ⟨char_toNat_ofNat (by omega), h.1, h.2⟩
  · left
    rw [if_neg h]
    exact ⟨rfl, fun hh => h ⟨hh.1, hh.2⟩⟩

theorem toLower_idem (c : Char) :
    Char.toLower (Char.toLower c) = Char.toLower c := by
  rcases toLower_cases c with ⟨h, _⟩ | ⟨h, h1, h2⟩
  · simp only [h]
  · rcases toLower_cases (Char.toLower c) with ⟨h3, _⟩ | ⟨_, h4, h5⟩
    · exact h3
    · omega

theorem toLower_ne_small {c d : Char} (hd : d.toNat < 97) (h : c ≠ d) :
    Char.toLower c ≠ d := by
  rcases toLower_cases c with ⟨h1, _⟩ | ⟨h1, h2, h3⟩
  · rw [h1]; exact h
  · intro he
    have h4 := congrArg Char.toNat he
    omega

theorem toLowerStr_idem (s : Str) : toLowerStr (toLowerStr s) = toLowerStr s := by
  unfold toLowerStr
  rw [List.map_map]
  exact List.map_congr_left fun c _ => toLower_idem c

theorem normalize_host_eq (h : Str) :
    normalize_host h = langStrip (wwwStrip (toLowerStr h)) := rfl

theorem hostChar_iff {c : Char} :
    hostChar c = true ↔
      c ≠ '/' ∧ c ≠ '?' ∧ c ≠ '#' ∧ c ≠ ':' ∧ c ≠ '@' := by
  simp [hostChar, not_or, and_assoc]

theorem pathChar_iff {c : Char} :
    pathChar c = true ↔ c ≠ '?' ∧ c ≠ '#' := by
  simp [pathChar, not_or]

theorem notHash_iff {c : Char} : notHash c = true ↔ c ≠ '#' := by
  simp [notHash]

theorem notColon_iff {c : Char} : notColon c = true ↔ c ≠ ':' := by
  simp [notColon]

theorem authChar_iff {c : Char} :
    authChar c = true ↔ c ≠ '/' ∧ c ≠ '?' ∧ c ≠ '#' := by
  simp [authChar, not_or, and_assoc]

theorem hostChar_toLower {c : Char} (h : hostChar c = true) :
    hostChar (Char.toLower c) = true := by
  rw [hostChar_iff] at h ⊢
  obtain ⟨h1, h2, h3, h4, h5⟩ := h
  exact ⟨toLower_ne_small (by decide) h1, toLower_ne_small (by decide) h2,
    toLower_ne_small (by decide) h3, toLower_ne_small (by decide) h4,
    toLower_ne_small (by decide) h5⟩

theorem schemeChar_toLower {c : Char} (h : schemeChar c = true) :
    schemeChar (Char.toLower c) = true := by
  rcases toLower_cases c with ⟨h1, _⟩ | ⟨h1, h2, h3⟩
  · rw [h1]; exact h
  · have hl : isLowerAlpha (Char.toLower c) = true := by
      simp only [isLowerAlpha, Bool.and_eq_true, decide_eq_true_eq]
      omega
    simp [schemeChar, hl]

theorem schemeOk_toLower {s : Str} (h : schemeOk s = true) :
    schemeOk (toLowerStr s) = true := by
  cases s with
  | nil => exact absurd h (by decide)
  | cons c cs =>
    simp only [schemeOk, Bool.and_eq_true, Bool.or_eq_true,
      decide_eq_true_eq, List.all_eq_true, isLowerAlpha] at h
    obtain ⟨hc, hcs⟩ := h
    simp only [toLowerStr, List.map_cons, schemeOk, Bool.and_eq_true,
      Bool.or_eq_true, decide_eq_true_eq, List.all_eq_true, isLowerAlpha]
    constructor
    · rcases toLower_cases c with ⟨h1, _⟩ | ⟨h1, h2, h3⟩
      · rw [h1]; exact hc
      · exact Or.inr ⟨by omega, by omega⟩
    · intro x hx
      obtain ⟨d, hd, rfl⟩ := List.mem_map.mp hx
      exact schemeChar_toLower (hcs d hd)

theorem mem_wwwStrip {c : Char} {h : Str} (hc : c ∈ wwwStrip h) : c ∈ h := by
  unfold wwwStrip at hc
  split at hc
  · exact List.drop_subset _ _ hc
  · exact hc

theorem mem_langStrip {c : Char} {h : Str} (hc : c ∈ langStrip h) : c ∈ h := by
  unfold langStrip at hc
  split at hc
  · exact List.drop_subset _ _ hc
  · exact hc

theorem hostChar_normalize_host {h : Str} (hall : ∀ x ∈ h, hostChar x = true) :
    ∀ c ∈ normalize_host h, hostChar c = true := by
  intro c hc
  rw [normalize_host_eq] at hc
  have hc2 : c ∈ toLowerStr h := mem_wwwStrip (mem_langStrip hc)
  obtain ⟨d, hd, rfl⟩ := List.mem_map.mp hc2
  exact hostChar_toLower (hall d hd)

theorem wwwStrip_length (h : Str) : h.length ≤ (wwwStrip h).length + 4 := by
  unfold wwwStrip
  split
  · simp only [List.length_drop]; omega
  · omega

theorem langStrip_length (h : Str) : h.length ≤ (langStrip h).length + 3 := by
  unfold langStrip
  split
  · simp only [List.length_drop]; omega
  · omega

/-! ### Query machinery lemmas -/

theorem splitOnChar_ne_nil (c : Char) (l : Str) : splitOnChar c l ≠ [] := by
  induction l with
  | nil => simp [splitOnChar]
  | cons x xs ih =>
    simp only [splitOnChar]
    split
    · simp
    · split
      · simp
      · simp

theorem splitOnChar_not_mem {sep : Char} {l : Str} :
    ∀ piece ∈ splitOnChar sep l, sep ∉ piece := by
  induction l with
  | nil =>
    intro piece hp
    simp only [splitOnChar, List.mem_singleton] at hp
    subst hp
    simp
  | cons x xs ih =>
    intro piece hp
    simp only [splitOnChar] at hp
    by_cases hx : (x == sep) = true
    · rw [if_pos hx] at hp
      rcases List.mem_cons.mp hp with rfl | hp2
      · simp
      · exact ih piece hp2
    · rw [if_neg hx] at hp
      have hxne : x ≠ sep := by simpa using hx
      rcases hsp : splitOnChar sep xs with _ | ⟨p, ps⟩
      · exact absurd hsp (splitOnChar_ne_nil sep xs)
      · rw [hsp] at hp
        rcases List.mem_cons.mp hp with rfl | hp2
        · intro hmem
          rcases List.mem_cons.mp hmem with rfl | hmem2
          · exact hxne rfl
          · exact ih p (by rw [hsp]; exact List.mem_cons_self p ps) hmem2
        · exact ih piece (by rw [hsp]; exact List.mem_cons_of_mem p hp2)

theorem mem_of_mem_splitOnChar {sep : Char} {l : Str} :
    ∀ piece ∈ splitOnChar sep l, ∀ c ∈ piece, c ∈ l := by
  induction l with
  | nil =>
    intro piece hp
    simp only [splitOnChar, List.mem_singleton] at hp
    subst hp
    simp
  | cons x xs ih =>
    intro piece hp c hc
    simp only [splitOnChar] at hp
    by_cases hx : (x == sep) = true
    · rw [if_pos hx] at hp
      rcases List.mem_cons.mp hp with rfl | hp2
      · exact absurd hc (List.not_mem_nil c)
      · exact List.mem_cons_of_mem x (ih piece hp2 c hc)
    · rw [if_neg hx] at hp
      rcases hsp : splitOnChar sep xs with _ | ⟨p, ps⟩
      · exact absurd hsp (splitOnChar_ne_nil sep xs)
      · rw [hsp] at hp
        rcases List.mem_cons.mp hp with rfl | hp2
        · rcases List.mem_cons.mp hc with rfl | hc2
          · exact List.mem_cons_self c xs
          · exact List.mem_cons_of_mem x
              (ih p (by rw [hsp]; exact List.mem_cons_self p ps) c hc2)
        · exact List.mem_cons_of_mem x
            (ih piece (by rw [hsp]; exact List.mem_cons_of_mem p hp2) c hc)

theorem splitOnChar_of_not_mem {sep : Char} {l : Str} (h : sep ∉ l) :
    splitOnChar sep l = [l] := by
  induction l with
  | nil => rfl
  | cons x xs ih =>
    have hx : ¬((x == sep) = true) := by
      simp only [beq_iff_eq]
      exact fun he => h (he ▸ List.mem_cons_self x xs)
    have hxs : sep ∉ xs := fun hm => h (List.mem_cons_of_mem x hm)
    simp only [splitOnChar, if_neg hx, ih hxs]

theorem splitOnChar_append {sep : Char} {xs ys : Str} (h : sep ∉ xs) :
    splitOnChar sep (xs ++ sep :: ys) = xs :: splitOnChar sep ys := by
  induction xs with
  | nil =>
    simp only [List.nil_append, splitOnChar, if_pos (beq_self_eq_true sep)]
  | cons x xs ih =>
    have hx : ¬((x == sep) = true) := by
      simp only [beq_iff_eq]
      exact fun he => h (he ▸ List.mem_cons_self x xs)
    have hxs : sep ∉ xs := fun hm => h (List.mem_cons_of_mem x hm)
    simp only [List.cons_append, splitOnChar, if_neg hx, List.append_eq, ih hxs]

theorem queryPiece_take {k v : Str} (hk : '=' ∉ k) :
    (k ++ '=' :: v).takeWhile notEq = k := by
  rw [List.takeWhile_append_of_pos, List.takeWhile_cons_of_neg (by decide),
    List.append_nil]
  intro a ha
  simp only [notEq, Bool.not_eq_true', beq_eq_false_iff_ne]
  exact fun he => hk (he ▸ ha)

theorem queryPiece_drop {k v : Str} (hk : '=' ∉ k) :
    (k ++ '=' :: v).dropWhile notEq = '=' :: v := by
  rw [List.dropWhile_append_of_pos, List.dropWhile_cons_of_neg (by decide)]
  intro a ha
  simp only [notEq, Bool.not_eq_true', beq_eq_false_iff_ne]
  exact fun he => hk (he ▸ ha)

theorem queryPiece_amp {k v : Str} (hk1 : '&' ∉ k) (hk2 : '&' ∉ v) :
    '&' ∉ k ++ '=' :: v := by
  simp only [List.mem_append, List.mem_cons]
  rintro (h | h | h)
  · exact hk1 h
  · exact absurd h (by decide)
  · exact hk2 h

theorem parseQueryPairs_wf {q : Str} {kv : Str × Str}
    (h : kv ∈ parseQueryPairs q) :
    '&' ∉ kv.1 ∧ '&' ∉ kv.2 ∧ '=' ∉ kv.1 ∧
    (∀ c ∈ kv.1, c ∈ q) ∧ (∀ c ∈ kv.2, c ∈ q) := by
  unfold parseQueryPairs at h
  rw [List.mem_filterMap] at h
  obtain ⟨piece, hpiece, hf⟩ := h
  by_cases he : piece.isEmpty
  · rw [if_pos he] at hf
    exact absurd hf (by simp)
  · rw [if_neg he] at hf
    have hamp : '&' ∉ piece := splitOnChar_not_mem piece hpiece
    have hsub : ∀ c ∈ piece, c ∈ q := mem_of_mem_splitOnChar piece hpiece
    have hkey : kv.1 = piece.takeWhile notEq := by
      have := Option.some.inj hf
      rw [← this]
    have hval : kv.2 = (match piece.dropWhile notEq with
        | _ :: v => v
        | [] => []) := by
      have := Option.some.inj hf
      rw [← this]
    have hksub : ∀ c ∈ kv.1, c ∈ piece := by
      rw [hkey]
      exact fun c hc => (List.takeWhile_sublist notEq).subset hc
    have hvsub : ∀ c ∈ kv.2, c ∈ piece := by
      rw [hval]
      rcases hd : piece.dropWhile notEq with _ | ⟨y, v⟩
      · simp
      · intro c hc
        have h1 : c ∈ piece.dropWhile notEq := by
          rw [hd]
          exact List.mem_cons_of_mem y hc
        exact (List.dropWhile_sublist notEq).subset h1
    refine ⟨fun hm => hamp (hksub _ hm), fun hm => hamp (hvsub _ hm), ?_,
      fun c hc => hsub c (hksub c hc), fun c hc => hsub c (hvsub c hc)⟩
    rw [hkey]
    intro hm
    have := List.mem_takeWhile_imp hm
    simp [notEq] at this

theorem parseQueryPairs_join :
    ∀ (ps : List (Str × Str)), ps ≠ [] →
      (∀ p ∈ ps, '&' ∉ p.1 ∧ '&' ∉ p.2 ∧ '=' ∉ p.1) →
      parseQueryPairs (joinPairs ps) = ps
  | [], h, _ => absurd rfl h
  | [(k, v)], _, hwf => by
    obtain ⟨hk1, hk2, hk3⟩ := hwf (k, v) (List.mem_singleton_self _)
    have hamp : '&' ∉ k ++ '=' :: v := queryPiece_amp hk1 hk2
    have hne : ¬((k ++ '=' :: v).isEmpty = true) := by
      simp [List.isEmpty_eq_true]
    unfold joinPairs parseQueryPairs
    rw [splitOnChar_of_not_mem hamp, List.filterMap_cons, List.filterMap_nil,
      if_neg hne, queryPiece_take hk3, queryPiece_drop hk3]
  | (k, v) :: p :: rest, _, hwf => by
    obtain ⟨hk1, hk2, hk3⟩ := hwf (k, v) (List.mem_cons_self _ _)
    have hwf2 : ∀ x ∈ p :: rest, '&' ∉ x.1 ∧ '&' ∉ x.2 ∧ '=' ∉ x.1 :=
      fun x hx => hwf x (List.mem_cons_of_mem _ hx)
    have ih := parseQueryPairs_join (p :: rest) (by simp) hwf2
    have hamp : '&' ∉ k ++ '=' :: v := queryPiece_amp hk1 hk2
    have hne : ¬((k ++ '=' :: v).isEmpty = true) := by
      simp [List.isEmpty_eq_true]
    have hjoin : joinPairs ((k, v) :: p :: rest) =
        (k ++ '=' :: v) ++ '&' :: joinPairs (p :: rest) := by
      simp [joinPairs, List.append_assoc]
    unfold parseQueryPairs at ih ⊢
    rw [hjoin, splitOnChar_append hamp, List.filterMap_cons, if_neg hne,
      queryPiece_take hk3, queryPiece_drop hk3, ih]

/-! ### Sorting lemmas -/

theorem lexLe_refl (a : Str) : lexLe a a = true := by
  induction a with
  | nil => rfl
  | cons x xs ih =>
    simp only [lexLe, if_neg (Nat.lt_irrefl _)]
    exact ih

theorem lexLe_head {x y : Char} {xs ys : Str}
    (h : lexLe (x :: xs) (y :: ys) = true) : x.toNat ≤ y.toNat := by
  simp only [lexLe] at h
  by_cases h1 : x.toNat < y.toNat
  · omega
  · rw [if_neg h1] at h
    by_cases h2 : y.toNat < x.toNat
    · rw [if_pos h2] at h
      exact absurd h (by decide)
    · omega

theorem lexLe_cons_iff {x y : Char} {xs ys : Str} :
    lexLe (x :: xs) (y :: ys) = true ↔
      (x.toNat < y.toNat ∨ (x.toNat = y.toNat ∧ lexLe xs ys = true)) := by
  simp only [lexLe]
  rcases Nat.lt_trichotomy x.toNat y.toNat with h | h | h
  · rw [if_pos h]
    simp [h]
  · rw [if_neg (by omega), if_neg (by omega)]
    constructor
    · exact fun hh => Or.inr ⟨h, hh⟩
    · rintro (hh | ⟨_, hh⟩)
      · omega
      · exact hh
  · rw [if_neg (by omega), if_pos h]
    simp only [Bool.false_eq_true, false_iff]
    rintro (hh | ⟨hh, _⟩) <;> omega

theorem lexLe_total (a b : Str) : lexLe a b = true ∨ lexLe b a = true := by
  induction a generalizing b with
  | nil => exact Or.inl rfl
  | cons x xs ih =>
    cases b with
    | nil => exact Or.inr rfl
    | cons y ys =>
      rcases Nat.lt_trichotomy x.toNat y.toNat with h | h | h
      · exact Or.inl (lexLe_cons_iff.mpr (Or.inl h))
      · rcases ih ys with h2 | h2
        · exact Or.inl (lexLe_cons_iff.mpr (Or.inr ⟨h, h2⟩))
        · exact Or.inr (lexLe_cons_iff.mpr (Or.inr ⟨h.symm, h2⟩))
      · exact Or.inr (lexLe_cons_iff.mpr (Or.inl h))

theorem lexLe_trans {a b c : Str} (h1 : lexLe a b = true)
    (h2 : lexLe b c = true) : lexLe a c = true := by
  induction a generalizing b c with
  | nil => rfl
  | cons x xs ih =>
    cases b with
    | nil => exact absurd h1 (by simp [lexLe])
    | cons y ys =>
      cases c with
      | nil => exact absurd h2 (by simp [lexLe])
      | cons z zs =>
        rcases lexLe_cons_iff.mp h1 with hx | ⟨hx, hx2⟩ <;>
          rcases lexLe_cons_iff.mp h2 with hy | ⟨hy, hy2⟩
        · exact lexLe_cons_iff.mpr (Or.inl (by omega))
        · exact lexLe_cons_iff.mpr (Or.inl (by omega))
        · exact lexLe_cons_iff.mpr (Or.inl (by omega))
        · exact lexLe_cons_iff.mpr (Or.inr ⟨by omega, ih hx2 hy2⟩)

theorem mem_insertPair {x y : Str × Str} {l : List (Str × Str)} :
    y ∈ insertPair x l ↔ y = x ∨ y ∈ l := by
  induction l with
  | nil => simp [insertPair]
  | cons z zs ih =>
    simp only [insertPair]
    split
    · simp [List.mem_cons]
    · simp only [List.mem_cons, ih]
      tauto

theorem pairwise_insertPair {x : Str × Str} {l : List (Str × Str)}
    (h : l.Pairwise keyLe) : (insertPair x l).Pairwise keyLe := by
  induction l with
  | nil => simp [insertPair, keyLe]
  | cons y ys ih =>
    obtain ⟨h1, h2⟩ := List.pairwise_cons.mp h
    simp only [insertPair]
    by_cases hxy : lexLe x.1 y.1 = true
    · rw [if_pos hxy]
      refine List.pairwise_cons.mpr ⟨?_, h⟩
      intro z hz
      rcases List.mem_cons.mp hz with rfl | hz2
      · exact hxy
      · exact lexLe_trans hxy (h1 z hz2)
    · rw [if_neg hxy]
      have hyx : lexLe y.1 x.1 = true := (lexLe_total x.1 y.1).resolve_left hxy
      refine List.pairwise_cons.mpr ⟨?_, ih h2⟩
      intro z hz
      rcases mem_insertPair.mp hz with rfl | hz2
      · exact hyx
      · exact h1 z hz2

theorem sortPairs_pairwise (l : List (Str × Str)) :
    (sortPairs l).Pairwise keyLe := by
  induction l with
  | nil => simp [sortPairs]
  | cons x xs ih => exact pairwise_insertPair ih

theorem mem_sortPairs {y : Str × Str} {l : List (Str × Str)} :
    y ∈ sortPairs l ↔ y ∈ l := by
  induction l with
  | nil => simp [sortPairs]
  | cons x xs ih =>
    simp only [sortPairs, mem_insertPair, List.mem_cons, ih]

theorem sortPairs_sorted_fix {l : List (Str × Str)}
    (h : l.Pairwise keyLe) : sortPairs l = l := by
  induction l with
  | nil => rfl
  | cons x xs ih =>
    obtain ⟨h1, h2⟩ := List.pairwise_cons.mp h
    rw [sortPairs, ih h2]
    cases xs with
    | nil => rfl
    | cons y ys =>
      rw [insertPair,
        if_pos (show lexLe x.1 y.1 = true from h1 y (List.mem_cons_self y ys))]

/-! ### Query idempotence -/

theorem normalizeQuery_none : normalizeQuery none = none := rfl

theorem normalizeQuery_eq (qs : Str) :
    normalizeQuery (some qs) =
      if (sortPairs ((parseQueryPairs qs).filter
            fun p => !is_tracking_parameter p.1)).isEmpty
      then none
      else some (joinPairs (sortPairs ((parseQueryPairs qs).filter
            fun p => !is_tracking_parameter p.1))) := rfl

theorem normalizeQuery_idem (q : Option Str) :
    normalizeQuery (normalizeQuery q) = normalizeQuery q := by
  cases q with
  | none => rfl
  | some qs =>
    rw [normalizeQuery_eq]
    set kept := (parseQueryPairs qs).filter
      (fun p => !is_tracking_parameter p.1) with hkept
    by_cases hs : (sortPairs kept).isEmpty
    · rw [if_pos hs]
      rfl
    · rw [if_neg hs]
      have hwfS : ∀ p ∈ sortPairs kept, '&' ∉ p.1 ∧ '&' ∉ p.2 ∧ '=' ∉ p.1 := by
        intro p hp
        have hp3 : p ∈ parseQueryPairs qs :=
          List.mem_of_mem_filter (mem_sortPairs.mp hp)
        obtain ⟨a, b, c, _, _⟩ := parseQueryPairs_wf hp3
        exact ⟨a, b, c⟩
      have hne : sortPairs kept ≠ [] := by
        intro h
        rw [h] at hs
        exact hs rfl
      have hrt : parseQueryPairs (joinPairs (sortPairs kept)) = sortPairs kept :=
        parseQueryPairs_join _ hne hwfS
      have hfil : (sortPairs kept).filter
          (fun p => !is_tracking_parameter p.1) = sortPairs kept := by
        rw [List.filter_eq_self]
        intro p hp
        have hp2 : p ∈ (parseQueryPairs qs).filter
            (fun p => !is_tracking_parameter p.1) := by
          rw [← hkept]
          exact mem_sortPairs.mp hp
        exact (List.mem_filter.mp hp2).2
      rw [normalizeQuery_eq, hrt, hfil,
        sortPairs_sorted_fix (sortPairs_pairwise kept), if_neg hs]

/-! ### Parser well-formedness -/

theorem drop_length_takeWhile (p : Char → Bool) (l : Str) :
    l.drop (l.takeWhile p).length = l.dropWhile p := by
  calc l.drop (l.takeWhile p).length
      = (l.takeWhile p ++ l.dropWhile p).drop (l.takeWhile p).length := by
        rw [List.takeWhile_append_dropWhile]
    _ = l.dropWhile p := List.drop_left _ _

theorem authChar_pathChar {c : Char} (h1 : authChar c = false)
    (h2 : pathChar c = true) : c = '/' := by
  have h3 : (c == '/' || c == '?' || c == '#') = true := by
    rcases hb : (c == '/' || c == '?' || c == '#') with _ | _
    · rw [authChar, hb] at h1
      exact absurd h1 (by decide)
    · rfl
  simp only [Bool.or_eq_true, beq_iff_eq] at h3
  rw [pathChar_iff] at h2
  rcases h3 with (h | h) | h
  · exact h
  · exact absurd h h2.1
  · exact absurd h h2.2

/-- The first character after the authority, when it survives into the
path, is `/`. -/
theorem takeWhile_path_head (rest : Str)
    (hne : (rest.dropWhile authChar).takeWhile pathChar ≠ []) :
    ((rest.dropWhile authChar).takeWhile pathChar).head? = some '/' := by
  cases hLc : rest.dropWhile authChar with
  | nil => rw [hLc] at hne; simp at hne
  | cons c cs =>
    have hac : authChar c = false := by
      have h2 := List.head?_dropWhile_not authChar rest
      rw [hLc] at h2
      simpa using h2
    by_cases hpc : pathChar c = true
    · rw [List.takeWhile_cons_of_pos hpc]
      simp [authChar_pathChar hac hpc]
    · rw [hLc, List.takeWhile_cons_of_neg (by simpa using hpc)] at hne
      exact absurd rfl hne

theorem parseUrl_wf {s : Str} {r : UrlRec} (hp : parseUrl s = some r) :
    schemeOk r.scheme = true ∧
    r.host ≠ [] ∧ (∀ c ∈ r.host, hostChar c = true) ∧
    r.path ≠ [] ∧ r.path.head? = some '/' ∧
    (∀ c ∈ r.path, pathChar c = true) ∧
    (∀ q, r.query = some q → ∀ c ∈ q, notHash c = true) := by
  simp only [parseUrl] at hp
  split at hp
  case _ rest heq =>
    split at hp
    case isFalse => exact absurd hp (by simp)
    case isTrue hsch =>
      split at hp
      case isFalse => exact absurd hp (by simp)
      case isTrue hauth =>
        simp only [Bool.and_eq_true, decide_eq_true_eq, List.all_eq_true] at hauth
        obtain ⟨hne, hall⟩ := hauth
        rw [drop_length_takeWhile authChar rest,
          drop_length_takeWhile pathChar (rest.dropWhile authChar)] at hp
        have hpath_ne :
            (if (rest.dropWhile authChar).takeWhile pathChar = [] then ['/']
             else (rest.dropWhile authChar).takeWhile pathChar) ≠ [] := by
          by_cases hrpe : (rest.dropWhile authChar).takeWhile pathChar = []
          · rw [if_pos hrpe]; simp
          · rw [if_neg hrpe]; exact hrpe
        have hpath_head :
            (if (rest.dropWhile authChar).takeWhile pathChar = [] then ['/']
             else (rest.dropWhile authChar).takeWhile pathChar).head? =
              some '/' := by
          by_cases hrpe : (rest.dropWhile authChar).takeWhile pathChar = []
          · rw [if_pos hrpe]; rfl
          · rw [if_neg hrpe]
            exact takeWhile_path_head rest hrpe
        have hpath_chars :
            ∀ c ∈ (if (rest.dropWhile authChar).takeWhile pathChar = [] then ['/']
              else (rest.dropWhile authChar).takeWhile pathChar),
              pathChar c = true := by
          by_cases hrpe : (rest.dropWhile authChar).takeWhile pathChar = []
          · rw [if_pos hrpe]
            intro c hc
            rw [List.mem_singleton] at hc
            subst hc
            decide
          · rw [if_neg hrpe]
            intro c hc
            exact List.mem_takeWhile_imp hc
        split at hp
        case _ heq2 =>
          rw [Option.some.injEq] at hp
          subst hp
          exact ⟨hsch, hne, hall, hpath_ne, hpath_head, hpath_chars,
            fun q hq => absurd hq (by simp)⟩
        case _ qrest heq2 =>
          split at hp
          case _ heq3 =>
            rw [Option.some.injEq] at hp
            subst hp
            refine ⟨hsch, hne, hall, hpath_ne, hpath_head, hpath_chars, ?_⟩
            intro q hq c hc
            rw [Option.some.injEq] at hq
            subst hq
            exact List.mem_takeWhile_imp hc
          case _ f heq3 =>
            rw [Option.some.injEq] at hp
            subst hp
            refine ⟨hsch, hne, hall, hpath_ne, hpath_head, hpath_chars, ?_⟩
            intro q hq c hc
            rw [Option.some.injEq] at hq
            subst hq
            exact List.mem_takeWhile_imp hc
          case _ => exact absurd hp (by simp)
        case _ f heq2 =>
          rw [Option.some.injEq] at hp
          subst hp
          exact ⟨hsch, hne, hall, hpath_ne, hpath_head, hpath_chars,
            fun q hq => absurd hq (by simp)⟩
        case _ => exact absurd hp (by simp)
  case _ => exact absurd hp (by simp)

/-! ### Serialize/parse roundtrip -/

theorem schemeChar_notColon {c : Char} (h : schemeChar c = true) :
    notColon c = true := by
  simp only [schemeChar, Bool.or_eq_true, Bool.and_eq_true, decide_eq_true_eq,
    beq_iff_eq, isLowerAlpha] at h
  simp only [notColon, Bool.not_eq_true', beq_eq_false_iff_ne]
  have h58 : (':').toNat = 58 := rfl
  rcases h with ((((h | h) | h) | rfl) | rfl) | rfl
  · intro he
    subst he
    omega
  · intro he
    subst he
    omega
  · intro he
    subst he
    omega
  · decide
  · decide
  · decide

theorem schemeOk_notColon {s : Str} (h : schemeOk s = true) :
    ∀ c ∈ s, notColon c = true := by
  cases s with
  | nil => intro c hc; exact absurd hc (List.not_mem_nil c)
  | cons c cs =>
    simp only [schemeOk, Bool.and_eq_true, Bool.or_eq_true,
      decide_eq_true_eq, List.all_eq_true, isLowerAlpha] at h
    obtain ⟨hc1, hc2⟩ := h
    intro d hd
    rcases List.mem_cons.mp hd with rfl | hd2
    · simp only [notColon, Bool.not_eq_true', beq_eq_false_iff_ne]
      have h58 : (':').toNat = 58 := rfl
      intro he
      subst he
      rcases hc1 with h | h <;> omega
    · exact schemeChar_notColon (hc2 d hd2)

theorem hostChar_authChar {c : Char} (h : hostChar c = true) :
    authChar c = true := by
  rw [hostChar_iff] at h
  rw [authChar_iff]
  exact ⟨h.1, h.2.1, h.2.2.1⟩

theorem takeWhile_all {p : Char → Bool} {l : Str}
    (h : ∀ c ∈ l, p c = true) : l.takeWhile p = l := by
  induction l with
  | nil => rfl
  | cons x xs ih =>
    rw [List.takeWhile_cons_of_pos (h x (List.mem_cons_self x xs)),
      ih fun c hc => h c (List.mem_cons_of_mem x hc)]

theorem parse_serialize {r : UrlRec} (hw : NormWf r) :
    parseUrl (serializeUrl r) = some r := by
  obtain ⟨s, h, p, q, f⟩ := r
  obtain ⟨hs, hh1, hh2, hp1, hp2, hp3, hq, hf⟩ := hw
  dsimp only at hs hh1 hh2 hp1 hp2 hp3 hq hf
  subst hf
  obtain ⟨p', rfl⟩ : ∃ tail, p = '/' :: tail := by
    cases p with
    | nil => exact absurd hp2 (by simp)
    | cons c cs =>
      rw [List.head?_cons, Option.some.injEq] at hp2
      exact ⟨cs, by rw [hp2]⟩
  have hsCol : ∀ c ∈ s, notColon c = true := schemeOk_notColon hs
  have hAuth : ∀ c ∈ h, authChar c = true :=
    fun c hc => hostChar_authChar (hh2 c hc)
  have hcond : (decide (¬h = []) && h.all hostChar) = true := by
    simp only [Bool.and_eq_true, decide_eq_true_eq, List.all_eq_true]
    exact ⟨hh1, hh2⟩
  cases q with
  | none =>
    have hser : serializeUrl ⟨s, h, '/' :: p', none, none⟩ =
        s ++ ':' :: '/' :: '/' :: (h ++ '/' :: p') := by
      simp [serializeUrl, List.append_assoc]
    rw [hser]
    simp only [parseUrl]
    rw [List.takeWhile_append_of_pos hsCol,
      List.takeWhile_cons_of_neg (by decide), List.append_nil, List.drop_left]
    simp only []
    rw [if_pos hs]
    rw [List.takeWhile_append_of_pos hAuth,
      List.takeWhile_cons_of_neg (by decide), List.append_nil, List.drop_left]
    rw [if_pos hcond]
    rw [takeWhile_all hp3, List.drop_length]
    simp only []
    rw [if_neg (by simp)]
  | some qs =>
    have hqs : ∀ c ∈ qs, notHash c = true := hq qs rfl
    have hp3' : ∀ c ∈ p', pathChar c = true :=
      fun c hc => hp3 c (List.mem_cons_of_mem _ hc)
    have hser : serializeUrl ⟨s, h, '/' :: p', some qs, none⟩ =
        s ++ ':' :: '/' :: '/' :: (h ++ '/' :: (p' ++ '?' :: qs)) := by
      simp [serializeUrl, List.append_assoc]
    rw [hser]
    simp only [parseUrl]
    rw [List.takeWhile_append_of_pos hsCol,
      List.takeWhile_cons_of_neg (by decide), List.append_nil, List.drop_left]
    simp only []
    rw [if_pos hs]
    rw [List.takeWhile_append_of_pos hAuth,
      List.takeWhile_cons_of_neg (by decide), List.append_nil, List.drop_left]
    rw [if_pos hcond]
    rw [List.takeWhile_cons_of_pos (by decide),
      List.takeWhile_append_of_pos hp3',
      List.takeWhile_cons_of_neg (by decide), List.append_nil]
    rw [List.length_cons, List.drop_succ_cons, List.drop_left]
    simp only []
    rw [if_neg (by simp)]
    rw [takeWhile_all hqs, List.drop_length]

/-! ### Normalization preserves well-formedness -/

theorem mem_normalizePath {c : Char} {p : Str} (hc : c ∈ normalizePath p) :
    c ∈ p := by
  unfold normalizePath at hc
  split at hc
  · exact (List.dropLast_sublist p).subset hc
  · exact hc

theorem normalizePath_ne {p : Str} (h : p ≠ []) : normalizePath p ≠ [] := by
  unfold normalizePath
  split
  · rename_i hcond
    simp only [Bool.and_eq_true, decide_eq_true_eq] at hcond
    intro he
    have h2 := congrArg List.length he
    rw [List.length_dropLast] at h2
    simp only [List.length_nil] at h2
    omega
  · exact h

theorem normalizePath_head (p : Str) :
    (normalizePath p).head? = p.head? := by
  unfold normalizePath
  split
  · rename_i hcond
    simp only [Bool.and_eq_true, decide_eq_true_eq] at hcond
    cases p with
    | nil => simp at hcond
    | cons a t =>
      cases t with
      | nil => simp at hcond
      | cons b t2 => rfl
  · rfl

theorem mem_joinPairs {c : Char} :
    ∀ {ps : List (Str × Str)}, c ∈ joinPairs ps →
      c = '=' ∨ c = '&' ∨ ∃ p ∈ ps, c ∈ p.1 ∨ c ∈ p.2
  | [], hc => absurd hc (List.not_mem_nil c)
  | [(k, v)], hc => by
    simp only [joinPairs, List.mem_append, List.mem_cons] at hc
    rcases hc with h | h | h
    · exact Or.inr (Or.inr ⟨(k, v), List.mem_singleton_self _, Or.inl h⟩)
    · exact Or.inl h
    · exact Or.inr (Or.inr ⟨(k, v), List.mem_singleton_self _, Or.inr h⟩)
  | (k, v) :: p :: rest, hc => by
    simp only [joinPairs, List.mem_append, List.mem_cons] at hc
    rcases hc with (h | h | h) | h | h
    · exact Or.inr (Or.inr ⟨(k, v), List.mem_cons_self _ _, Or.inl h⟩)
    · exact Or.inl h
    · exact Or.inr (Or.inr ⟨(k, v), List.mem_cons_self _ _, Or.inr h⟩)
    · exact Or.inr (Or.inl h)
    · rcases mem_joinPairs h with h4 | h4 | ⟨x, hx, hcx⟩
      · exact Or.inl h4
      · exact Or.inr (Or.inl h4)
      · exact Or.inr (Or.inr ⟨x, List.mem_cons_of_mem _ hx, hcx⟩)

theorem normalizeQuery_notHash {q0 : Option Str}
    (hq0 : ∀ qs, q0 = some qs → ∀ c ∈ qs, notHash c = true) :
    ∀ qs, normalizeQuery q0 = some qs → ∀ c ∈ qs, notHash c = true := by
  intro qs hqs c hc
  cases q0 with
  | none => exact absurd hqs (by simp [normalizeQuery_none])
  | some q1 =>
    rw [normalizeQuery_eq] at hqs
    by_cases hs : (sortPairs ((parseQueryPairs q1).filter
        fun p => !is_tracking_parameter p.1)).isEmpty
    · rw [if_pos hs] at hqs
      exact absurd hqs (by simp)
    · rw [if_neg hs] at hqs
      rw [Option.some.injEq] at hqs
      subst hqs
      rcases mem_joinPairs hc with rfl | rfl | ⟨p, hp, hcp⟩
      · decide
      · decide
      · have hp2 : p ∈ parseQueryPairs q1 :=
          List.mem_of_mem_filter (mem_sortPairs.mp hp)
        obtain ⟨_, _, _, hk, hv⟩ := parseQueryPairs_wf hp2
        rcases hcp with hcp | hcp
        · exact hq0 q1 rfl c (hk c hcp)
        · exact hq0 q1 rfl c (hv c hcp)

/-- On any parsed URL whose normalized host is nonempty, `normRec`
produces a record the serializer and parser round-trip. -/
theorem normRec_wf {s : Str} {r : UrlRec} (hp : parseUrl s = some r)
    (hne : (normRec r).host ≠ []) : NormWf (normRec r) := by
  obtain ⟨hs, hh1, hh2, hp1, hp2, hp3, hq⟩ := parseUrl_wf hp
  refine ⟨?_, hne, ?_, ?_, ?_, ?_, ?_, rfl⟩
  · exact schemeOk_toLower hs
  · exact fun c hc => hostChar_normalize_host hh2 c hc
  · exact normalizePath_ne hp1
  · rw [show (normRec r).path = normalizePath r.path from rfl,
      normalizePath_head]
    exact hp2
  · intro c hc
    exact hp3 c (mem_normalizePath hc)
  · exact normalizeQuery_notHash hq

/-- Under host and path fixpoint hypotheses, `normRec` is idempotent
(scheme lowering and query rebuilding are unconditionally idempotent). -/
theorem normRec_fix {r : UrlRec}
    (hhost : normalize_host (normRec r).host = (normRec r).host)
    (hpath : normalizePath (normRec r).path = (normRec r).path) :
    normRec (normRec r) = normRec r := by
  cases r with
  | mk s h p q f =>
    simp only [normRec] at hhost hpath ⊢
    rw [toLowerStr_idem, hhost, hpath, normalizeQuery_idem]

/-- C9: `normalize_host` first lower-cases the whole host, then strips a
leading `www.` once, then — on the result — strips a leading two-letter
language label; `WWW.EN.Example.com` normalizes to `example.com`. -/
theorem host_normalization_order :
    (∀ h : Str, normalize_host h = langStrip (wwwStrip (toLowerStr h))) ∧
    normalize_host "WWW.EN.Example.com".toList = "example.com".toList :=
  ⟨fun _ => rfl, by decide⟩

/-- C10: the two-letter language-subdomain rule fires at most once per
call — `normalize_host` shortens its input by at most the seven
characters of one `www.` prefix and one language label, and stacked
labels keep the inner ones: `en.fr.example.com ↦ fr.example.com` and
`www.en.fr.example.com ↦ fr.example.com`. -/
theorem lang_subdomain_once :
    (∀ h : Str, h.length ≤ (normalize_host h).length + 7) ∧
    normalize_host "en.fr.example.com".toList = "fr.example.com".toList ∧
    normalize_host "www.en.fr.example.com".toList = "fr.example.com".toList := by
  refine ⟨fun h => ?_, by decide, by decide⟩
  rw [normalize_host_eq]
  have h1 : (toLowerStr h).length = h.length := List.length_map _ _
  have h2 := wwwStrip_length (toLowerStr h)
  have h3 := langStrip_length (wwwStrip (toLowerStr h))
  omega

/-- C8: every mutation first requires an authenticated caller: with no
authenticated user, `create_comment`, `update_comment` and
`delete_comment` return the authentication error, for every content,
URL, parent id and store — in particular the result depends on none of
them, so no canonicalization outcome or store content is consulted. -/
theorem mutation_guard_first :
    ∀ (store : Store) (content url : Str) (pid : Option Nat) (nid i : Nat),
      create_comment none store content url pid nid = .error authMsg ∧
      update_comment none store i content = .error authMsg ∧
      delete_comment none store i = .error authMsg :=
  fun _ _ _ _ _ _ => ⟨rfl, rfl, rfl⟩

/-- C4: for an authenticated caller and valid content, `update_comment`
and `delete_comment` on a comment owned by another author fail with
exactly the same error as on an id that matches no row at all. -/
theorem ownership_fusion (store : Store) (user idA idB : Nat) (content : Str)
    (hA : ∀ c ∈ store, c.id ≠ idA)
    (hB : ∀ c ∈ store, c.id = idB → c.author ≠ user)
    (hne : (trimChars content).isEmpty = false)
    (hlen : byteLen content ≤ 5000) :
    update_comment (some user) store idA content = .error updateMissingMsg ∧
    update_comment (some user) store idB content = .error updateMissingMsg ∧
    delete_comment (some user) store idA = .error deleteMissingMsg ∧
    delete_comment (some user) store idB = .error deleteMissingMsg := by
  have hval : validate_content content = .ok (trimChars content) := by
    unfold validate_content
    rw [hne]
    simp [Nat.not_lt.mpr hlen]
  have hfindA : store.find? (fun c => c.id == idA && c.author == user) = none := by
    rw [List.find?_eq_none]
    intro c hc
    simp only [Bool.and_eq_true, beq_iff_eq, not_and]
    exact fun h => absurd h (hA c hc)
  have hfindB : store.find? (fun c => c.id == idB && c.author == user) = none := by
    rw [List.find?_eq_none]
    intro c hc
    simp only [Bool.and_eq_true, beq_iff_eq, not_and]
    exact fun h1 h2 => hB c hc h1 h2
  have hfilA : store.filter (fun c => !(c.id == idA && c.author == user)) = store := by
    rw [List.filter_eq_self]
    intro c hc
    simp only [Bool.not_eq_eq_eq_not, Bool.not_true, Bool.and_eq_false_iff, beq_eq_false_iff_ne]
    exact Or.inl (hA c hc)
  have hfilB : store.filter (fun c => !(c.id == idB && c.author == user)) = store := by
    rw [List.filter_eq_self]
    intro c hc
    by_cases h : c.id = idB
    · simp [hB c hc h]
    · simp [h]
  refine ⟨?_, ?_, ?_, ?_⟩
  · simp [update_comment, hval, hfindA]
  · simp [update_comment, hval, hfindB]
  · simp [delete_comment, hfilA]
    exact fun x hx h => absurd h (hA x hx)
  · simp [delete_comment, hfilB]
    exact fun x hx h => hB x hx h

/-- Witness for C4 at a concrete store: one comment with id 5 owned by
user 9; caller is user 1; id 7 matches nothing. -/
theorem ownership_fusion_witness :
    update_comment (some 1) [⟨5, 9, ['x'], [], [], [], none⟩] 7 ['h', 'i'] =
      .error updateMissingMsg ∧
    update_comment (some 1) [⟨5, 9, ['x'], [], [], [], none⟩] 5 ['h', 'i'] =
      .error updateMissingMsg ∧
    delete_comment (some 1) [⟨5, 9, ['x'], [], [], [], none⟩] 7 =
      .error deleteMissingMsg ∧
    delete_comment (some 1) [⟨5, 9, ['x'], [], [], [], none⟩] 5 =
      .error deleteMissingMsg :=
  ownership_fusion [⟨5, 9, ['x'], [], [], [], none⟩] 1 7 5 ['h', 'i']
    (by decide) (by decide) (by decide) (by decide)

/-! ### C5, C6, C7, C2 -/

/-- C5: the four spec URLs produce one and the same grouping key, and the
tracking-decorated URL produces the same canonical form as the bare
one. -/
theorem grouping_equivalence :
    groupingKeyOf "http://example.com/a".toList =
      groupingKeyOf "http://example.com/a/".toList ∧
    groupingKeyOf "http://example.com/a/".toList =
      groupingKeyOf "http://en.example.com/a/".toList ∧
    groupingKeyOf "http://en.example.com/a/".toList =
      groupingKeyOf "http://www.example.com/a".toList ∧
    groupingKeyOf "http://example.com/a".toList ≠ none ∧
    canonicalFormOf "https://en.example.com/a?utm_source=google".toList =
      canonicalFormOf "https://example.com/a".toList ∧
    canonicalFormOf "https://example.com/a".toList ≠ none := by
  refine ⟨by decide, by decide, by decide, by decide, by decide, by decide⟩

/-- C6: the canonical query keeps exactly the non-denylisted pairs,
stable-sorted by key and rejoined with `&`, omitting the query entirely
when nothing remains; query order does not affect the canonical form. -/
theorem query_reencoding :
    (∀ (r : UrlRec) (q : Str), r.query = some q →
      (normRec r).query =
        (if sortPairs ((parseQueryPairs q).filter
              fun p => !(trackingParams.contains p.1)) = []
         then none
         else some (joinPairs (sortPairs ((parseQueryPairs q).filter
              fun p => !(trackingParams.contains p.1)))))) ∧
    normalize_url "http://x.com/p?b=2&a=1".toList =
      normalize_url "http://x.com/p?a=1&b=2".toList ∧
    canonicalFormOf "http://x.com/p?b=2&a=1".toList =
      some "http://x.com/p?a=1&b=2".toList ∧
    canonicalFormOf "http://x.com/p?utm_source=g".toList =
      some "http://x.com/p".toList := by
  refine ⟨?_, by decide, by decide, by decide⟩
  intro r q hq
  simp only [normRec, normalizeQuery, hq, is_tracking_parameter]
  by_cases hs : sortPairs ((parseQueryPairs q).filter
      fun p => !(trackingParams.contains p.1)) = []
  · simp [hs]
  · simp [hs]

/-- Witness for C6 at the record parsed from `http://x.com/p?a=1`. -/
theorem query_reencoding_witness :
    (normRec ⟨"http".toList, "x.com".toList, "/p".toList,
        some "a=1".toList, none⟩).query =
      (if sortPairs ((parseQueryPairs "a=1".toList).filter
            fun p => !(trackingParams.contains p.1)) = []
       then none
       else some (joinPairs (sortPairs ((parseQueryPairs "a=1".toList).filter
            fun p => !(trackingParams.contains p.1))))) :=
  query_reencoding.1 _ _ rfl

/-- C7: the path step strips exactly one trailing `/` from paths longer
than one character, leaves length-≤-1 paths (in particular the root `/`)
untouched, and `http://x.com/` keeps its trailing slash. -/
theorem path_normalization :
    (∀ r : UrlRec,
      (1 < r.path.length → r.path.getLast? = some '/' →
        (normRec r).path = r.path.dropLast) ∧
      (r.path.length ≤ 1 → (normRec r).path = r.path) ∧
      (r.path.getLast? ≠ some '/' → (normRec r).path = r.path)) ∧
    normalize_url "http://x.com/".toList =
      .ok ("http://x.com/".toList, create_url_hash "http://x.com/".toList) := by
  refine ⟨?_, by decide⟩
  intro r
  refine ⟨fun h1 h2 => ?_, fun h1 => ?_, fun h2 => ?_⟩
  · simp [normRec, normalizePath, h1, h2]
  · simp only [normRec, normalizePath]
    rw [if_neg]
    simp only [Bool.and_eq_true, decide_eq_true_eq, not_and]
    omega
  · simp only [normRec, normalizePath]
    rw [if_neg]
    simp only [Bool.and_eq_true, decide_eq_true_eq, not_and, beq_iff_eq]
    exact fun _ => h2

/-- Witness for C7 at the record with path `/a/`. -/
theorem path_normalization_witness :
    (normRec ⟨"http".toList, "x.com".toList, "/a/".toList, none, none⟩).path =
      ("/a/".toList).dropLast :=
  (path_normalization.1 _).1 (by decide) (by decide)

/-- C2 counterexample: `http://en./a` parses successfully (host `en.`,
a valid trailing-dot domain), yet `normalize_url` returns an error —
`normalize_host` strips the two-letter-plus-dot prefix leaving an empty
host, and the `set_host` call's `EmptyHost` failure is propagated by the
`?` on utils.rs line 16.  The claim that the function never errors on a
parseable URL is therefore false. -/
theorem canonicalize_error_after_parse_cex :
    parseUrl "http://en./a".toList =
      some ⟨"http".toList, "en.".toList, "/a".toList, none, none⟩ ∧
    normalize_host "en.".toList = [] ∧
    normalize_url "http://en./a".toList = .error .EmptyHost :=
  ⟨by decide, by decide, by decide⟩

/-- C2 amended: after a successful parse, the only remaining failure
point is the host step — when `normalize_host` empties the host, the
propagated `EmptyHost` error is returned; for every parsed URL whose
normalized host is nonempty, all subsequent steps (scheme lowering, path
and query normalization, fragment removal, serialization, hashing) are
total and the function returns `Ok` with the serialized normalized
record and its hash. -/
theorem canonicalize_total_after_parse_amended (u : Str) (r : UrlRec)
    (h : parseUrl u = some r) :
    (normalize_host r.host = [] →
      normalize_url u = .error .EmptyHost) ∧
    (normalize_host r.host ≠ [] →
      normalize_url u =
        .ok (serializeUrl (normRec r),
          create_url_hash (serializeUrl (normRec r)))) := by
  constructor
  · intro he
    simp [normalize_url, h, he]
  · intro hne
    simp [normalize_url, h, hne]

/-- Witness for C2's amended theorem at `http://example.com/a`, whose
normalized host is nonempty. -/
theorem canonicalize_total_after_parse_amended_witness :
    normalize_url "http://example.com/a".toList =
      .ok (serializeUrl (normRec ⟨"http".toList, "example.com".toList,
             "/a".toList, none, none⟩),
           create_url_hash (serializeUrl (normRec ⟨"http".toList,
             "example.com".toList, "/a".toList, none, none⟩))) :=
  (canonicalize_total_after_parse_amended _ _ (by decide)).2 (by decide)

/-! ### C3 -/

theorem trimChars_contentCex : trimChars contentCex = List.replicate 5000 'a' := by
  have h1 : Char.isWhitespace ' ' = true := by decide
  have h2 : Char.isWhitespace 'a' = false := by decide
  unfold contentCex trimChars
  rw [List.dropWhile_cons_of_pos h1, List.dropWhile_replicate, h2,
    if_neg (by decide), List.reverse_replicate, List.dropWhile_replicate, h2,
    if_neg (by decide), List.reverse_replicate]

theorem byteLen_contentCex : byteLen contentCex = 5001 := by
  have h1 : Char.utf8Size 'a' = 1 := by decide
  have h2 : Char.utf8Size ' ' = 1 := by decide
  unfold contentCex byteLen
  rw [List.map_cons, List.map_replicate, h1, h2, List.sum_cons,
    List.sum_replicate, smul_eq_mul]

/-- A validation failure short-circuits `update_comment`. -/
theorem update_comment_validation (user : Nat) (store : Store) (i : Nat)
    (content e : Str) (h : validate_content content = .error e) :
    update_comment (some user) store i content = .error e := by
  simp [update_comment, h]

/-- After a successful URL normalization, a validation failure
short-circuits `create_comment`. -/
theorem create_comment_validation (user : Nat) (store : Store)
    (content url : Str) (pid : Option Nat) (nid : Nat) (nu nh : Str)
    (hurl : normalize_url url = .ok (nu, nh)) (e : Str)
    (h : validate_content content = .error e) :
    create_comment (some user) store content url pid nid = .error e := by
  simp [create_comment, hurl, h]

/-- C3 counterexample: content whose trimmed length is exactly 5000
characters is nevertheless rejected as too long by both mutations,
because the code checks the length of the untrimmed content. -/
theorem content_bounds_cex :
    (trimChars contentCex).length = 5000 ∧
    update_comment (some 1) [] 0 contentCex = .error tooLongMsg ∧
    create_comment (some 1) [] contentCex "http://x.com/".toList none 0 =
      .error tooLongMsg := by
  have hrep : ¬((List.replicate 5000 'a').isEmpty = true) := by
    intro h
    rw [List.isEmpty_eq_true] at h
    have h2 := congrArg List.length h
    rw [List.length_replicate] at h2
    exact absurd h2 (by decide)
  have hval : validate_content contentCex = .error tooLongMsg := by
    unfold validate_content
    rw [trimChars_contentCex, byteLen_contentCex, if_neg hrep,
      if_pos (by omega)]
  have hurl : normalize_url "http://x.com/".toList =
      .ok ("http://x.com/".toList, "http://x.com/".toList) := by decide
  exact ⟨by rw [trimChars_contentCex, List.length_replicate],
    update_comment_validation 1 [] 0 contentCex tooLongMsg hval,
    create_comment_validation 1 [] contentCex "http://x.com/".toList none 0
      _ _ hurl tooLongMsg hval⟩

/-- C3 amended: content is accepted exactly when the trimmed content is
nonempty and the untrimmed content's byte length is at most 5000; an
empty-after-trim content gets the empty-content error, and an untrimmed
length above 5000 gets the too-long error — the bound is measured before
trimming. -/
theorem content_bounds_amended (content : Str) :
    ((∃ t, validate_content content = .ok t) ↔
      ((trimChars content).isEmpty = false ∧ byteLen content ≤ 5000)) ∧
    ((trimChars content).isEmpty = true →
      validate_content content = .error emptyMsg) ∧
    ((trimChars content).isEmpty = false → 5000 < byteLen content →
      validate_content content = .error tooLongMsg) := by
  unfold validate_content
  by_cases h1 : (trimChars content).isEmpty = true
  · simp [h1]
  · rw [Bool.not_eq_true] at h1
    by_cases h2 : 5000 < byteLen content
    · simp [h1, h2, Nat.not_le.mpr h2]
    · simp [h1, h2, Nat.not_lt.mp h2]

/-- Witness for C3's amended theorem at a blank-only content. -/
theorem content_bounds_amended_witness :
    validate_content [' '] = .error emptyMsg :=
  (content_bounds_amended [' ']).2.1 (by decide)

/-! ### C1 counterexample -/

/-- C1 counterexample: `http://en.fr.example.com/a` canonicalizes to
`http://fr.example.com/a`, whose own canonicalization strips the next
two-letter label and yields `http://example.com/a` — re-canonicalizing
the canonical form is not a no-op. -/
theorem canonicalize_not_idempotent_cex :
    normalize_url "http://en.fr.example.com/a".toList =
      .ok ("http://fr.example.com/a".toList, "http://fr.example.com/a".toList) ∧
    normalize_url "http://fr.example.com/a".toList =
      .ok ("http://example.com/a".toList, "http://example.com/a".toList) ∧
    normalize_url "http://fr.example.com/a".toList ≠
      normalize_url "http://en.fr.example.com/a".toList := by
  have h1 : normalize_url "http://en.fr.example.com/a".toList =
      .ok ("http://fr.example.com/a".toList, "http://fr.example.com/a".toList) := by
    decide
  have h2 : normalize_url "http://fr.example.com/a".toList =
      .ok ("http://example.com/a".toList, "http://example.com/a".toList) := by
    decide
  refine ⟨h1, h2, ?_⟩
  rw [h1, h2]
  simp only [ne_eq, Except.ok.injEq, Prod.mk.injEq]
  decide

/-- C1 amended: canonicalization is idempotent for every URL whose
canonical record keeps a nonempty host that is a fixed point of
`normalize_host` and a path that is a fixed point of the trailing-slash
rule.  (The counterexample shows why the restriction is needed: a host
with stacked two-letter labels loses one more label on the second run;
likewise a path still ending in `/` after one strip, or a host emptied by
the stripping, changes again.) -/
theorem canonicalize_idempotent_amended (u : Str) (r : UrlRec)
    (hp : parseUrl u = some r)
    (hne : (normRec r).host ≠ [])
    (hhost : normalize_host (normRec r).host = (normRec r).host)
    (hpath : normalizePath (normRec r).path = (normRec r).path) :
    normalize_url u =
      .ok (serializeUrl (normRec r),
        create_url_hash (serializeUrl (normRec r))) ∧
    normalize_url (serializeUrl (normRec r)) = normalize_url u := by
  have hne1 : normalize_host r.host ≠ [] := by
    simpa only [normRec] using hne
  have hne2 : normalize_host (normRec r).host ≠ [] := by
    rw [hhost]
    exact hne
  have h1 : normalize_url u =
      .ok (serializeUrl (normRec r),
        create_url_hash (serializeUrl (normRec r))) := by
    simp [normalize_url, hp, hne1]
  have hrt : parseUrl (serializeUrl (normRec r)) = some (normRec r) :=
    parse_serialize (normRec_wf hp hne)
  have h2 : normalize_url (serializeUrl (normRec r)) =
      .ok (serializeUrl (normRec (normRec r)),
        create_url_hash (serializeUrl (normRec (normRec r)))) := by
    simp [normalize_url, hrt, hne2]
  rw [normRec_fix hhost hpath] at h2
  exact ⟨h1, h2.trans h1.symm⟩

/-- Witness for C1's amended theorem at a URL exercising every
normalization step (case, `www.` and language label, trailing slash,
tracking parameter, query order, fragment). -/
theorem canonicalize_idempotent_amended_witness :
    normalize_url
        "http://www.EN.Example.com/a/b/?utm_source=x&b=2&a=1#frag".toList =
      .ok (serializeUrl (normRec ⟨"http".toList, "www.EN.Example.com".toList,
          "/a/b/".toList, some "utm_source=x&b=2&a=1".toList,
          some "frag".toList⟩),
        create_url_hash (serializeUrl (normRec ⟨"http".toList,
          "www.EN.Example.com".toList, "/a/b/".toList,
          some "utm_source=x&b=2&a=1".toList, some "frag".toList⟩))) ∧
    normalize_url (serializeUrl (normRec ⟨"http".toList,
        "www.EN.Example.com".toList, "/a/b/".toList,
        some "utm_source=x&b=2&a=1".toList, some "frag".toList⟩)) =
      normalize_url
        "http://www.EN.Example.com/a/b/?utm_source=x&b=2&a=1#frag".toList :=
  canonicalize_idempotent_amended _ _ (by decide) (by decide) (by decide)
    (by decide)

end Votp
